import Mathlib

/-!
Verification of the key-encoding and pagination core of the s3 call/log
store (`api/logs/s3/s3.go` and its two later revisions).

Go strings are byte sequences here, so identifiers, paths, keys and the
bucket's object names are modelled as `List Nat` of byte values.  The
object store itself is modelled as an association list from keys to the
stored call record (`some call` for a primary record, `none` for an
empty-payload marker object), kept in the ascending key order that the
s3 `ListObjects` call exposes.
-/

/-- Bytes of a Go string / byte slice. -/
abbrev Bytes := List Nat

/-- `xorCursor` (first revision, kept verbatim in later ones as the
descending transform): XORs every byte of the id with `0xFF`. -/
def xorCursor (oid : Bytes) : Bytes := oid.map (fun b => b ^^^ 255)

/-- `flipCursor` of the final revision.  Modelled from the spec: the body
calls `id.Id.MarshalDescending`, which is not under src; spec section 4.1
describes `encodeDescending` as a reversible, order-reversing,
length-preserving byte transform (e.g. bytewise complement), which is
exactly `xorCursor` from the first revision.  The Go special case
`flipCursor("") = ""` holds definitionally here. -/
def flipCursor (oid : Bytes) : Bytes := xorCursor oid

/-- The URL-safe base64 alphabet (`encoding/base64.RawURLEncoding`),
as byte values: `A`-`Z`, `a`-`z`, `0`-`9`, `-`, `_`. -/
def b64char (n : Nat) : Nat :=
  List.getD
    [65, 66, 67, 68, 69, 70, 71, 72, 73, 74, 75, 76, 77, 78, 79, 80,
     81, 82, 83, 84, 85, 86, 87, 88, 89, 90,
     97, 98, 99, 100, 101, 102, 103, 104, 105, 106, 107, 108, 109, 110,
     111, 112, 113, 114, 115, 116, 117, 118, 119, 120, 121, 122,
     48, 49, 50, 51, 52, 53, 54, 55, 56, 57, 45, 95] n 0

/-- `base64.RawURLEncoding.EncodeToString`: unpadded URL-safe base64. -/
def base64url : Bytes → Bytes
  | [] => []
  | [b1] => [b64char (b1 / 4), b64char (b1 % 4 * 16)]
  | [b1, b2] => [b64char (b1 / 4), b64char (b1 % 4 * 16 + b2 / 16),
                 b64char (b2 % 16 * 4)]
  | b1 :: b2 :: b3 :: rest =>
      b64char (b1 / 4) :: b64char (b1 % 4 * 16 + b2 / 16) ::
      b64char (b2 % 16 * 4 + b3 / 64) :: b64char (b3 % 64) :: base64url rest

/-- `callKeyFlipped(app, id)` of the final revision: `"c/" + app + "/" + id`,
for an id that is already descending-encoded. -/
def callKeyFlipped (app idFlipped : Bytes) : Bytes :=
  [99, 47] ++ app ++ [47] ++ idFlipped

/-- `callKey(app, id)`: descending-encode the id, then build the primary
key `"c/" + app + "/" + flipped`. -/
def callKey (app idStr : Bytes) : Bytes :=
  callKeyFlipped app (flipCursor idStr)

/-- `callMarkerKey(app, path, id)` of the final revision:
`"m/" + app + "/" + base64url(path) + "/" + flipped id`. -/
def callMarkerKey (app path idStr : Bytes) : Bytes :=
  [109, 47] ++ app ++ [47] ++ base64url path ++ [47] ++ flipCursor idStr

/-- `strings.Split` on a single separator byte.  `splitOnByte sep "" = [""]`
exactly as in Go. -/
def splitOnByte (sep : Nat) : Bytes → List Bytes
  | [] => [[]]
  | b :: rest =>
    let r := splitOnByte sep rest
    if b = sep then [] :: r
    else
      match r with
      | f :: fs => (b :: f) :: fs
      | [] => [[b]]

/-- Strict lexicographic byte order on keys, the order in which the s3
backend sorts and compares object keys. -/
def ltb : Bytes → Bytes → Bool
  | [], [] => false
  | [], _ :: _ => true
  | _ :: _, [] => false
  | a :: as, b :: bs => if a < b then true else if b < a then false else ltb as bs

/-- Boolean key-prefix test (the s3 `Prefix` parameter semantics). -/
def startsWith : Bytes → Bytes → Bool
  | [], _ => true
  | _ :: _, [] => false
  | p :: ps, b :: bs => if p = b then startsWith ps bs else false

/-- A call record as far as this core reads it: the four filterable
fields; the opaque JSON remainder is irrelevant to key handling. -/
structure Call where
  appID : Bytes
  id : Bytes
  path : Bytes
  createdAt : Nat
deriving DecidableEq

/-- `models.CallFilter` as consumed by `GetCalls`.  Go's zero `time.Time`
check (`IsZero`) is modelled by `Option`: `none` means the bound is unset. -/
structure CallFilter where
  appID : Bytes
  path : Bytes
  fromTime : Option Nat
  toTime : Option Nat
  cursor : Bytes
  perPage : Nat
deriving DecidableEq

/-- The errors this core produces, one constructor per `Errorf` site. -/
inductive StoreErr where
  | invalidFilter
  | invalidKey (key : Bytes)
  | callNotFound
  | badRecord
  | insertFailed
  | markerFailed
deriving DecidableEq

/-- One backend access, for tracking what a call touched. -/
inductive BackendOp where
  | listReq (pre marker : Bytes) (limit : Nat)
  | getReq (key : Bytes)
  | putReq (key : Bytes)
deriving DecidableEq

/-- Outcome of one backend upload, to model fallible writes. -/
inductive PutRes where
  | ok
  | fail
deriving DecidableEq

/-- The s3 bucket: object key to stored value; `some c` is a serialized
call record, `none` the empty body of a marker object. -/
abbrev Bucket := List (Bytes × Option Call)

/-- First-match key lookup in the bucket (an s3 `GetObject`). -/
def findVal : Bucket → Bytes → Option (Option Call)
  | [], _ => none
  | (k', v) :: rest, k => if k' = k then some v else findVal rest k

/-- The s3 `ListObjects` request: of the bucket's keys (kept in ascending
order by the backend) those carrying the prefix and strictly greater than
the marker, capped at `MaxKeys`. -/
def listKeys (bucket : Bucket) (pre marker : Bytes) (maxKeys : Nat) : List Bytes :=
  ((((bucket.map Prod.fst).filter (fun k => startsWith pre k)).filter
      (fun k => ltb marker k)).take maxKeys)

/-- Field extraction of the `GetCalls` loop (final revision): split the
listed key on `/`; with a path filter expect the four marker-key fields
and take fields 1 and 3, otherwise the three primary-key fields and take
fields 1 and 2.  Any other field count is the `invalid key` error case. -/
def decodeListedKey (usePath : Bool) (k : Bytes) : Option (Bytes × Bytes) :=
  if usePath then
    match splitOnByte 47 k with
    | [_, a, _, i] => some (a, i)
    | _ => none
  else
    match splitOnByte 47 k with
    | [_, a, i] => some (a, i)
    | _ => none

/-- `getCallByKey`: download the object; a missing key is
`models.ErrCallNotFound`, a non-record body fails to unmarshal. -/
def getCallByKey (bucket : Bucket) (k : Bytes) : Except StoreErr Call :=
  match findVal bucket k with
  | none => Except.error StoreErr.callNotFound
  | some none => Except.error StoreErr.badRecord
  | some (some c) => Except.ok c

/-- `!t.IsZero() && call.CreatedAt.Before(t)` for the `FromTime` bound. -/
def skipFrom (f : CallFilter) (c : Call) : Bool :=
  match f.fromTime with
  | none => false
  | some ft => decide (c.createdAt < ft)

/-- `!t.IsZero() && !call.CreatedAt.Before(t)` for the `ToTime` bound. -/
def stopTo (f : CallFilter) (c : Call) : Bool :=
  match f.toTime with
  | none => false
  | some tt => decide (tt ≤ c.createdAt)

/-- Prepend the record of one `GetObject` to a loop result. -/
def withGet (k : Bytes) :
    List Call × Option StoreErr × List BackendOp →
    List Call × Option StoreErr × List BackendOp
  | (cs, e, ops) => (cs, e, BackendOp.getReq k :: ops)

/-- The body of the `GetCalls` listing loop (final revision), over the
keys returned by `ListObjects`: decode each key (aborting with the
`invalid key` error and the calls accumulated so far on a bad field
count), fetch the record at `callKeyFlipped(app, id)` (skipping the entry
on any fetch error), skip records before `FromTime`, stop at the first
record not before `ToTime`, and append the rest in listed order. -/
def processKeys (bucket : Bucket) (f : CallFilter) :
    List Bytes → List Call → List Call × Option StoreErr × List BackendOp
  | [], acc => (acc, none, [])
  | k :: ks, acc =>
    match decodeListedKey (!f.path.isEmpty) k with
    | none => (acc, some (StoreErr.invalidKey k), [])
    | some (a, fid) =>
      match getCallByKey bucket (callKeyFlipped a fid) with
      | Except.error _ => withGet (callKeyFlipped a fid) (processKeys bucket f ks acc)
      | Except.ok call =>
        if skipFrom f call then
          withGet (callKeyFlipped a fid) (processKeys bucket f ks acc)
        else if stopTo f call then
          (acc, none, [BackendOp.getReq (callKeyFlipped a fid)])
        else
          withGet (callKeyFlipped a fid) (processKeys bucket f ks (acc ++ [call]))

/-- The 48-bit big-endian millisecond bytes `byte(ms>>40) .. byte(ms)`
that `GetCalls` writes into the leading bytes of an id-shaped buffer. -/
def msBytes (ms : Nat) : Bytes :=
  [ms / 2 ^ 40 % 256, ms / 2 ^ 32 % 256, ms / 2 ^ 24 % 256,
   ms / 2 ^ 16 % 256, ms / 2 ^ 8 % 256, ms % 256]

/-- The time-derived partial id of `GetCalls`.  Modelled from the spec:
the Go code renders the buffer through `id.Id.String` (the id package is
not under src) and keeps the time-carrying leading portion; spec section
4.2 says the partial id is the fixed-width id-shaped buffer whose leading
bytes encode the bound's millisecond epoch big-endian, truncated to the
time-carrying leading bytes.  Ids are modelled at the byte level, so the
portion is exactly the six millisecond bytes. -/
def timeMid (fromTime : Option Nat) : Bytes :=
  match fromTime with
  | none => []
  | some ms => msBytes ms

/-- `GetCalls` (final revision): reject an empty app id before any
backend access; compute the list prefix from the namespace and the
time-derived partial id, and the list marker from the cursor; issue
`ListObjects`; run the loop.  The second component records every backend
request the call performed, in order. -/
def GetCalls (bucket : Bucket) (f : CallFilter) :
    (List Call × Option StoreErr) × List BackendOp :=
  if f.appID = [] then (([], some StoreErr.invalidFilter), [])
  else
    let mid := timeMid f.fromTime
    let pre := if f.path = [] then callKey f.appID mid
               else callMarkerKey f.appID f.path mid
    let marker := if f.cursor = [] then []
                  else if f.path = [] then callKey f.appID f.cursor
                  else callMarkerKey f.appID f.path f.cursor
    let keys := listKeys bucket pre marker f.perPage
    match processKeys bucket f keys [] with
    | (cs, e, ops) => ((cs, e), BackendOp.listReq pre marker f.perPage :: ops)

/-- `InsertCall` (final revision): upload the serialized record at the
primary key; only if that succeeded, upload the empty marker object at
the marker key.  `put` gives each upload's outcome; the trace lists the
uploads attempted, in order. -/
def InsertCall (put : Bytes → PutRes) (c : Call) :
    Option StoreErr × List BackendOp :=
  let pk := callKey c.appID c.id
  match put pk with
  | PutRes.fail => (some StoreErr.insertFailed, [BackendOp.putReq pk])
  | PutRes.ok =>
    let mk := callMarkerKey c.appID c.path c.id
    match put mk with
    | PutRes.fail => (some StoreErr.markerFailed,
                      [BackendOp.putReq pk, BackendOp.putReq mk])
    | PutRes.ok => (none, [BackendOp.putReq pk, BackendOp.putReq mk])

/-- The full decode of a listed primary or marker key back to an (app,
original id) pair: the field extraction of the final revision followed by
the descending-decode step `id = xorCursor(id)` that the first revision's
`GetCalls` applies before calling `GetCall` (the final revision instead
reuses the still-encoded id via `callKeyFlipped`). -/
def decodeCallId (usePath : Bool) (k : Bytes) : Option (Bytes × Bytes) :=
  match decodeListedKey usePath k with
  | none => none
  | some (a, fid) => some (a, xorCursor fid)

/-- The pagination protocol of the spec's completeness property: call
`GetCalls` with the previous page's last returned call id as the cursor
and concatenate the pages, stopping at the first empty page. -/
def chainPages (bucket : Bucket) (f : CallFilter) : Nat → Bytes → List Call
  | 0, _ => []
  | Nat.succ fuel, cur =>
    let page := ((GetCalls bucket
      ⟨f.appID, f.path, f.fromTime, f.toTime, cur, f.perPage⟩).1).1
    match page.getLast? with
    | none => []
    | some last => page ++ chainPages bucket f fuel last.id

example : xorCursor [0, 255, 1] = [255, 0, 254] := by decide

example : splitOnByte 47 [99, 47, 97, 47, 48] = [[99], [97], [48]] := by decide

example : ltb [1, 2] [1, 3] = true := by decide

example : base64url [47] = [76, 119] := by decide

set_option maxRecDepth 10000

lemma xor255_invol (b : Nat) : (b ^^^ 255) ^^^ 255 = b := by
  rw [Nat.xor_assoc, Nat.xor_self, Nat.xor_zero]

lemma xor255_fin : ∀ b : Fin 256, ((b : Nat) ^^^ 255) = 255 - (b : Nat) := by decide

lemma xor255_sub (b : Nat) (h : b < 256) : b ^^^ 255 = 255 - b :=
  xor255_fin ⟨b, h⟩

lemma ltb_cons_cons (a b : Nat) (as bs : Bytes) :
    ltb (a :: as) (b :: bs)
      = if a < b then true else if b < a then false else ltb as bs := rfl

lemma ltb_xor_rev :
    ∀ i1 i2 : Bytes, i1.length = i2.length → (∀ b ∈ i1, b < 256) →
      (∀ b ∈ i2, b < 256) → ltb i1 i2 = true →
      ltb (xorCursor i2) (xorCursor i1) = true := by
  intro i1
  induction i1 with
  | nil =>
    intro i2 hlen _ _ hlt
    cases i2 with
    | nil => simp [ltb] at hlt
    | cons b bs => simp at hlen
  | cons a as ih =>
    intro i2 hlen h1 h2 hlt
    cases i2 with
    | nil => simp at hlen
    | cons b bs =>
      have ha : a < 256 := h1 a (by simp)
      have hb : b < 256 := h2 b (by simp)
      rw [ltb_cons_cons] at hlt
      show ltb ((b ^^^ 255) :: xorCursor bs) ((a ^^^ 255) :: xorCursor as) = true
      rw [ltb_cons_cons, xor255_sub a ha, xor255_sub b hb]
      by_cases hab : a < b
      · have : 255 - b < 255 - a := by omega
        simp [this]
      · by_cases hba : b < a
        · simp [hab, hba] at hlt
        · have heq : a = b := by omega
          subst heq
          simp [hab] at hlt ⊢
          exact ih bs (by simpa using hlen) (fun x hx => h1 x (by simp [hx]))
            (fun x hx => h2 x (by simp [hx])) hlt

/-- Claim C3: the descending id encoding is order-reversing on
fixed-length byte ids: if `i1 < i2` in lexicographic byte order then the
encoded form of `i2` is lexicographically smaller than that of `i1`, and
the encoding preserves length. -/
theorem c3_descending_order_reversing (i1 i2 : Bytes)
    (hlen : i1.length = i2.length)
    (h1 : ∀ b ∈ i1, b < 256) (h2 : ∀ b ∈ i2, b < 256)
    (hlt : ltb i1 i2 = true) :
    ltb (xorCursor i2) (xorCursor i1) = true ∧
      (xorCursor i1).length = i1.length ∧ (xorCursor i2).length = i2.length :=
  ⟨ltb_xor_rev i1 i2 hlen h1 h2 hlt, by simp [xorCursor], by simp [xorCursor]⟩

theorem c3_descending_order_reversing_witness :
    ltb (xorCursor [48, 50]) (xorCursor [48, 49]) = true ∧
      (xorCursor [48, 49]).length = ([48, 49] : Bytes).length ∧
      (xorCursor [48, 50]).length = ([48, 50] : Bytes).length :=
  c3_descending_order_reversing [48, 49] [48, 50] (by decide) (by decide)
    (by decide) (by decide)

lemma xorCursor_xorCursor (s : Bytes) : xorCursor (xorCursor s) = s := by
  unfold xorCursor
  rw [List.map_map]
  have h : ((fun b => b ^^^ 255) ∘ fun b => b ^^^ 255) = (id : Nat → Nat) := by
    funext b
    simp [Function.comp, Nat.xor_assoc]
  rw [h, List.map_id]

/-- Claim C10: the bytewise-complement descending encoding is an
involution: applying `xorCursor` twice returns the original id, which is
what lets the listing recover the original call id from a listed key. -/
theorem c10_xor_involution (s : Bytes) : xorCursor (xorCursor s) = s :=
  xorCursor_xorCursor s

/-- Claim C4: a filter with an empty app id is rejected with the
invalid-filter error before any backend access: the result is the error
and the backend trace is empty. -/
theorem c4_empty_app_rejected (bucket : Bucket) (f : CallFilter)
    (h : f.appID = []) :
    GetCalls bucket f = (([], some StoreErr.invalidFilter), []) := by
  simp [GetCalls, h]

theorem c4_empty_app_rejected_witness :
    GetCalls [] ⟨[], [], none, none, [], 10⟩
      = (([], some StoreErr.invalidFilter), []) :=
  c4_empty_app_rejected [] ⟨[], [], none, none, [], 10⟩ rfl

/-- Claim C5: `InsertCall` uploads the record at the primary key first;
if that upload fails the error is surfaced and no marker upload is
attempted, and when it succeeds the marker upload follows it, so a marker
write only ever happens after a successful primary write. -/
theorem c5_insert_primary_first (put : Bytes → PutRes) (c : Call) :
    (put (callKey c.appID c.id) = PutRes.fail →
      InsertCall put c
        = (some StoreErr.insertFailed,
           [BackendOp.putReq (callKey c.appID c.id)])) ∧
    (put (callKey c.appID c.id) = PutRes.ok →
      (InsertCall put c).2
        = [BackendOp.putReq (callKey c.appID c.id),
           BackendOp.putReq (callMarkerKey c.appID c.path c.id)]) := by
  constructor
  · intro h
    simp [InsertCall, h]
  · intro h
    simp only [InsertCall]
    rw [h]
    cases hm : put (callMarkerKey c.appID c.path c.id) <;> simp [hm]

theorem c5_insert_primary_first_witness :
    (InsertCall (fun _ => PutRes.fail) ⟨[97], [48], [112], 0⟩
      = (some StoreErr.insertFailed, [BackendOp.putReq (callKey [97] [48])])) ∧
    ((InsertCall (fun _ => PutRes.ok) ⟨[97], [48], [112], 0⟩).2
      = [BackendOp.putReq (callKey [97] [48]),
         BackendOp.putReq (callMarkerKey [97] [112] [48])]) :=
  ⟨(c5_insert_primary_first (fun _ => PutRes.fail) ⟨[97], [48], [112], 0⟩).1 rfl,
   (c5_insert_primary_first (fun _ => PutRes.ok) ⟨[97], [48], [112], 0⟩).2 rfl⟩

/-- Claim C6: a listed key within the expected namespace whose field
count does not decode aborts the whole listing loop with the invalid-key
error (returning the calls accumulated so far), instead of being
silently skipped. -/
theorem c6_invalid_key_aborts (bucket : Bucket) (f : CallFilter) (k : Bytes)
    (ks : List Bytes) (acc : List Call)
    (_hpre : startsWith
      (if f.path.isEmpty then callKey f.appID []
       else callMarkerKey f.appID f.path []) k = true)
    (hdec : decodeListedKey (!f.path.isEmpty) k = none) :
    processKeys bucket f (k :: ks) acc = (acc, some (StoreErr.invalidKey k), []) := by
  simp only [processKeys]
  rw [hdec]

theorem c6_invalid_key_aborts_witness :
    processKeys [] ⟨[97], [], none, none, [], 10⟩
        [[99, 47, 97, 47, 120, 47, 121]] []
      = ([], some (StoreErr.invalidKey [99, 47, 97, 47, 120, 47, 121]), []) :=
  c6_invalid_key_aborts [] ⟨[97], [], none, none, [], 10⟩
    [99, 47, 97, 47, 120, 47, 121] [] [] (by decide) (by decide)

/-- Fixture record and one-record bucket for the loop witnesses. -/
def wCall : Call := ⟨[97], [48], [112], 5⟩

def wBucket : Bucket := [(callKey [97] [48], some wCall)]

/-- Claim C7: for a fetched record, if `FromTime` is set and the record's
creation time is before it, the entry is skipped and the loop continues
with the remaining keys; otherwise, if `ToTime` is set and the creation
time is at or after it, the loop stops at once and returns exactly the
calls accumulated so far. -/
theorem c7_time_bounds (bucket : Bucket) (f : CallFilter) (k : Bytes)
    (ks : List Bytes) (acc : List Call) (a fid : Bytes) (call : Call)
    (ft tt : Nat)
    (hdec : decodeListedKey (!f.path.isEmpty) k = some (a, fid))
    (hget : getCallByKey bucket (callKeyFlipped a fid) = Except.ok call) :
    (f.fromTime = some ft → call.createdAt < ft →
      processKeys bucket f (k :: ks) acc
        = withGet (callKeyFlipped a fid) (processKeys bucket f ks acc)) ∧
    (skipFrom f call = false → f.toTime = some tt → tt ≤ call.createdAt →
      processKeys bucket f (k :: ks) acc
        = (acc, none, [BackendOp.getReq (callKeyFlipped a fid)])) := by
  constructor
  · intro hft hlt
    simp only [processKeys, hdec]
    rw [hget]
    simp [skipFrom, hft, hlt]
  · intro hskip htt hle
    simp only [processKeys, hdec]
    rw [hget]
    simp [hskip, stopTo, htt, hle]

theorem c7_time_bounds_witness :
    (processKeys wBucket ⟨[97], [], some 10, none, [], 10⟩ [callKey [97] [48]] []
      = withGet (callKeyFlipped [97] [207])
          (processKeys wBucket ⟨[97], [], some 10, none, [], 10⟩ [] [])) ∧
    (processKeys wBucket ⟨[97], [], none, some 3, [], 10⟩ [callKey [97] [48]] []
      = ([], none, [BackendOp.getReq (callKeyFlipped [97] [207])])) :=
  ⟨(c7_time_bounds wBucket ⟨[97], [], some 10, none, [], 10⟩ (callKey [97] [48])
      [] [] [97] [207] wCall 10 0 (by decide) (by rfl)).1 rfl (by decide),
   (c7_time_bounds wBucket ⟨[97], [], none, some 3, [], 10⟩ (callKey [97] [48])
      [] [] [97] [207] wCall 0 3 (by decide) (by rfl)).2 (by decide) rfl
      (by decide)⟩

/-- Claim C9: when a listed key decodes but the record is gone at fetch
time, the loop skips that entry and continues with the next key; no
error is produced for it and the page is not aborted. -/
theorem c9_missing_record_skipped (bucket : Bucket) (f : CallFilter)
    (k : Bytes) (ks : List Bytes) (acc : List Call) (a fid : Bytes)
    (hdec : decodeListedKey (!f.path.isEmpty) k = some (a, fid))
    (hmiss : findVal bucket (callKeyFlipped a fid) = none) :
    processKeys bucket f (k :: ks) acc
      = withGet (callKeyFlipped a fid) (processKeys bucket f ks acc) := by
  simp only [processKeys]
  rw [hdec]
  simp [getCallByKey, hmiss]

theorem c9_missing_record_skipped_witness :
    processKeys [] ⟨[97], [], none, none, [], 10⟩ [callKey [97] [48]] []
      = withGet (callKeyFlipped [97] [207])
          (processKeys [] ⟨[97], [], none, none, [], 10⟩ [] []) :=
  c9_missing_record_skipped [] ⟨[97], [], none, none, [], 10⟩
    (callKey [97] [48]) [] [] [97] [207] (by decide) (by decide)

lemma b64char_fin : ∀ m : Fin 64, b64char m.val ≠ 47 := by decide

lemma b64char_ne47 (n : Nat) : b64char n ≠ 47 := by
  by_cases h : n < 64
  · exact b64char_fin ⟨n, h⟩
  · unfold b64char
    rw [List.getD_eq_default]
    · decide
    · simp
      omega

lemma base64url_no47 : ∀ l : Bytes, ∀ x ∈ base64url l, x ≠ 47 := by
  intro l
  induction l using base64url.induct with
  | case1 => simp [base64url]
  | case2 b1 =>
    intro x hx
    simp [base64url] at hx
    rcases hx with h | h <;> exact h ▸ b64char_ne47 _
  | case3 b1 b2 =>
    intro x hx
    simp [base64url] at hx
    rcases hx with h | h | h <;> exact h ▸ b64char_ne47 _
  | case4 b1 b2 b3 rest ih =>
    intro x hx
    simp [base64url] at hx
    rcases hx with h | h | h | h | h
    · exact h ▸ b64char_ne47 _
    · exact h ▸ b64char_ne47 _
    · exact h ▸ b64char_ne47 _
    · exact h ▸ b64char_ne47 _
    · exact ih x h

lemma splitOnByte_cons (sep b : Nat) (rest : Bytes) :
    splitOnByte sep (b :: rest)
      = if b = sep then [] :: splitOnByte sep rest
        else match splitOnByte sep rest with
          | f :: fs => (b :: f) :: fs
          | [] => [[b]] := rfl

lemma splitOnByte_no_sep (sep : Nat) :
    ∀ xs : Bytes, (∀ b ∈ xs, b ≠ sep) → splitOnByte sep xs = [xs] := by
  intro xs
  induction xs with
  | nil => intro _; rfl
  | cons b rest ih =>
    intro h
    rw [splitOnByte_cons, if_neg (h b (by simp)),
        ih (fun x hx => h x (by simp [hx]))]

lemma splitOnByte_append (sep : Nat) :
    ∀ xs ys : Bytes, (∀ b ∈ xs, b ≠ sep) →
      splitOnByte sep (xs ++ sep :: ys) = xs :: splitOnByte sep ys := by
  intro xs
  induction xs with
  | nil =>
    intro ys _
    rw [List.nil_append, splitOnByte_cons, if_pos rfl]
  | cons x xs' ih =>
    intro ys h
    rw [List.cons_append, splitOnByte_cons, if_neg (h x (by simp)),
        ih ys (fun b hb => h b (by simp [hb]))]

lemma split_callKeyFlipped (app fid : Bytes)
    (ha : ∀ b ∈ app, b ≠ 47) (hf : ∀ b ∈ fid, b ≠ 47) :
    splitOnByte 47 (callKeyFlipped app fid) = [[99], app, fid] := by
  have e : callKeyFlipped app fid = [99] ++ 47 :: (app ++ 47 :: fid) := by
    simp [callKeyFlipped]
  rw [e, splitOnByte_append 47 [99] _ (by decide),
      splitOnByte_append 47 app _ ha, splitOnByte_no_sep 47 fid hf]

lemma split_markerKey (app path fid : Bytes)
    (ha : ∀ b ∈ app, b ≠ 47) (hf : ∀ b ∈ fid, b ≠ 47) :
    splitOnByte 47 ([109, 47] ++ app ++ [47] ++ base64url path ++ [47] ++ fid)
      = [[109], app, base64url path, fid] := by
  have e : [109, 47] ++ app ++ [47] ++ base64url path ++ [47] ++ fid
      = [109] ++ 47 :: (app ++ 47 :: (base64url path ++ 47 :: fid)) := by
    simp
  rw [e, splitOnByte_append 47 [109] _ (by decide),
      splitOnByte_append 47 app _ ha,
      splitOnByte_append 47 (base64url path) _ (base64url_no47 path),
      splitOnByte_no_sep 47 fid hf]

lemma xorCursor_no47 (idv : Bytes) (hid : ∀ b ∈ idv, b ≠ 208) :
    ∀ b ∈ xorCursor idv, b ≠ 47 := by
  intro b hb
  simp only [xorCursor, List.mem_map] at hb
  obtain ⟨x, hx, rfl⟩ := hb
  intro hc
  apply hid x hx
  have h2 : (x ^^^ 255) ^^^ 255 = 47 ^^^ 255 := by rw [hc]
  rw [xor255_invol] at h2
  simpa using h2

/-- Claim C2: for an app containing no separator byte and an id whose
descending encoding contains none (true of all valid ids), decoding the
primary key built by `callKey` — field extraction followed by the
descending-decode step — returns exactly the original `(app, id)`, and
likewise for the marker key built by `callMarkerKey`. -/
theorem c2_key_roundtrip (app path idv : Bytes)
    (happ : ∀ b ∈ app, b ≠ 47) (hid : ∀ b ∈ idv, b ≠ 208) :
    decodeCallId false (callKey app idv) = some (app, idv) ∧
    decodeCallId true (callMarkerKey app path idv) = some (app, idv) := by
  have hfid : ∀ b ∈ xorCursor idv, b ≠ 47 := xorCursor_no47 idv hid
  have h1 : splitOnByte 47 (callKeyFlipped app (xorCursor idv))
      = [[99], app, xorCursor idv] := split_callKeyFlipped app _ happ hfid
  have h2 : splitOnByte 47 ([109, 47] ++ app ++ [47] ++ base64url path
        ++ [47] ++ xorCursor idv)
      = [[109], app, base64url path, xorCursor idv] :=
    split_markerKey app path _ happ hfid
  constructor
  · show decodeCallId false (callKeyFlipped app (xorCursor idv)) = _
    simp [decodeCallId, decodeListedKey, h1, xorCursor_xorCursor]
  · show decodeCallId true ([109, 47] ++ app ++ [47] ++ base64url path
        ++ [47] ++ xorCursor idv) = _
    simp only [List.append_assoc, List.cons_append, List.nil_append] at h2
    simp [decodeCallId, decodeListedKey, h2, xorCursor_xorCursor]

theorem c2_key_roundtrip_witness :
    decodeCallId false (callKey [97] [48, 49]) = some ([97], [48, 49]) ∧
    decodeCallId true (callMarkerKey [97] [112] [48, 49])
      = some ([97], [48, 49]) :=
  c2_key_roundtrip [97] [112] [48, 49] (by decide) (by decide)

/-- A record created after the `FromTime` bound below: its id's leading
bytes encode a later millisecond (2^40 ms) than the bound (3 ms). -/
def c1Rec : Call :=
  ⟨[97], [1, 0, 0, 0, 0, 0, 48, 48, 48, 48, 48, 48, 48, 48, 48, 48], [], 5⟩

def c1Bucket : Bucket := [(callKey [97] c1Rec.id, some c1Rec)]

/-- Claim C1 fails on the code: `GetCalls` uses the time-derived partial
id as the s3 list `Prefix` (not as the start marker), so when `FromTime`
is set only keys whose descending-encoded id begins with the encoded
bound's own byte sequence are listed at all.  Here a record of the right
app whose `createdAt` (5 ms) satisfies `FromTime = 3 ms` with no upper
bound is excluded from the listing (empty result, no error), while the
same query without `FromTime` returns it. -/
theorem c1_time_narrowing_excludes :
    (GetCalls c1Bucket ⟨[97], [], some 3, none, [], 10⟩).1 = ([], none) ∧
    (GetCalls c1Bucket ⟨[97], [], none, none, [], 10⟩).1 = ([c1Rec], none) ∧
    3 ≤ c1Rec.createdAt ∧ c1Rec.appID = [97] := by decide

lemma ltb_irrefl : ∀ l : Bytes, ltb l l = false := by
  intro l
  induction l with
  | nil => rfl
  | cons a as ih => simp [ltb_cons_cons, ih]

lemma ltb_asymm : ∀ a b : Bytes, ltb a b = true → ltb b a = false := by
  intro a
  induction a with
  | nil =>
    intro b h
    cases b with
    | nil => simp [ltb] at h
    | cons x xs => rfl
  | cons x xs ih =>
    intro b h
    cases b with
    | nil => simp [ltb] at h
    | cons y ys =>
      rw [ltb_cons_cons] at h
      rw [ltb_cons_cons]
      by_cases hxy : x < y
      · have : ¬ y < x := by omega
        simp [this, hxy]
      · by_cases hyx : y < x
        · simp [hxy, hyx] at h
        · simp [hxy, hyx] at h ⊢
          exact ih ys h

lemma ltb_ne (a b : Bytes) (h : ltb a b = true) : a ≠ b := by
  intro he
  subst he
  rw [ltb_irrefl] at h
  exact Bool.false_ne_true h

lemma startsWith_self_append : ∀ pre t : Bytes, startsWith pre (pre ++ t) = true := by
  intro pre
  induction pre with
  | nil => intro t; rfl
  | cons p ps ih => intro t; simp [startsWith, ih]

lemma callKeyFlipped_split (app fid : Bytes) :
    callKeyFlipped app fid = callKey app [] ++ fid := by
  simp [callKeyFlipped, callKey, flipCursor, xorCursor]

lemma callKey_as_append (app idv : Bytes) :
    callKey app idv = callKey app [] ++ flipCursor idv :=
  callKeyFlipped_split app (flipCursor idv)

lemma startsWith_callKey (app idv : Bytes) :
    startsWith (callKey app []) (callKey app idv) = true := by
  rw [callKey_as_append app idv]
  exact startsWith_self_append _ _

lemma callKey_ne_nil (app idv : Bytes) : callKey app idv ≠ [] := by
  simp [callKey, callKeyFlipped]

lemma ltb_nil_of_ne_nil (k : Bytes) (h : k ≠ []) : ltb [] k = true := by
  cases k with
  | nil => exact absurd rfl h
  | cons a as => rfl

lemma bucket_keys_pre (app : Bytes) (records : List Call) (extra : Bucket)
    (hextra : ∀ kv ∈ extra, startsWith (callKey app []) kv.1 = false) :
    ((records.map (fun c => (callKey app c.id, some c)) ++ extra).map
        Prod.fst).filter (fun k => startsWith (callKey app []) k)
      = records.map (fun c => callKey app c.id) := by
  rw [List.map_append, List.filter_append, List.map_map]
  have h1 : (records.map (Prod.fst ∘ fun (c : Call) => (callKey app c.id, some c))).filter
      (fun k => startsWith (callKey app []) k)
      = records.map (fun c => callKey app c.id) := by
    have he : (Prod.fst ∘ fun (c : Call) => (callKey app c.id, some c))
        = fun (c : Call) => callKey app c.id := rfl
    rw [he]
    apply List.filter_eq_self.mpr
    intro k hk
    simp only [List.mem_map] at hk
    obtain ⟨c, _, rfl⟩ := hk
    exact startsWith_callKey app c.id
  have h2 : (extra.map Prod.fst).filter (fun k => startsWith (callKey app []) k)
      = [] := by
    rw [List.filter_eq_nil_iff]
    intro k hk
    simp only [List.mem_map] at hk
    obtain ⟨kv, hkv, rfl⟩ := hk
    simp [hextra kv hkv]
  rw [h1, h2, List.append_nil]

lemma filter_ltb_after (m : Bytes) (K1 K2 : List Bytes)
    (hK : List.Pairwise (fun x y => ltb x y = true) (K1 ++ m :: K2)) :
    (K1 ++ m :: K2).filter (fun k => ltb m k) = K2 := by
  rw [List.pairwise_append] at hK
  obtain ⟨h1, h2, h12⟩ := hK
  rw [List.pairwise_cons] at h2
  obtain ⟨hm, _⟩ := h2
  rw [List.filter_append]
  have e1 : K1.filter (fun k => ltb m k) = [] := by
    rw [List.filter_eq_nil_iff]
    intro k hk
    have : ltb k m = true := h12 k hk m (by simp)
    simp [ltb_asymm k m this]
  have e2 : (m :: K2).filter (fun k => ltb m k) = K2 := by
    rw [List.filter_cons]
    simp only [ltb_irrefl]
    simp only [Bool.false_eq_true, if_false]
    apply List.filter_eq_self.mpr
    intro k hk
    simp [hm k hk]
  rw [e1, e2, List.nil_append]

lemma filter_ltb_nil_marker (K : List Bytes) (h : ∀ k ∈ K, k ≠ []) :
    K.filter (fun k => ltb [] k) = K := by
  apply List.filter_eq_self.mpr
  intro k hk
  simp [ltb_nil_of_ne_nil k (h k hk)]

lemma findVal_records (app : Bytes) :
    ∀ (records : List Call) (extra : Bucket) (c : Call),
      List.Pairwise (fun x y => ltb x y = true)
        (records.map (fun r => callKey app r.id)) →
      c ∈ records →
      findVal (records.map (fun r => (callKey app r.id, some r)) ++ extra)
          (callKey app c.id)
        = some (some c) := by
  intro records
  induction records with
  | nil =>
    intro extra c _ hc
    exact absurd hc (List.not_mem_nil c)
  | cons r rs ih =>
    intro extra c hp hc
    rw [List.map_cons, List.pairwise_cons] at hp
    obtain ⟨hr, hrs⟩ := hp
    rcases List.mem_cons.mp hc with heq | hmem
    · subst heq
      simp [findVal]
    · have hne : callKey app r.id ≠ callKey app c.id :=
        ltb_ne _ _ (hr (callKey app c.id)
          (List.mem_map.mpr ⟨c, hmem, rfl⟩))
      rw [List.map_cons, List.cons_append]
      simp only [findVal, if_neg hne]
      exact ih extra c hrs hmem

lemma processKeys_clean (bucket : Bucket) (f : CallFilter)
    (hpath : f.path = []) (hft : f.fromTime = none) (htt : f.toTime = none)
    (hsep : ∀ b ∈ f.appID, b ≠ 47) :
    ∀ (cs acc : List Call),
      (∀ c ∈ cs, findVal bucket (callKey f.appID c.id) = some (some c)) →
      (∀ c ∈ cs, ∀ b ∈ c.id, b ≠ 208) →
      processKeys bucket f (cs.map (fun c => callKey f.appID c.id)) acc
        = (acc ++ cs, none,
           cs.map (fun c => BackendOp.getReq (callKey f.appID c.id))) := by
  intro cs
  induction cs with
  | nil =>
    intro acc _ _
    simp [processKeys]
  | cons c cs' ih =>
    intro acc hfind h208
    rw [List.map_cons]
    have hdec : decodeListedKey (!f.path.isEmpty) (callKey f.appID c.id)
        = some (f.appID, flipCursor c.id) := by
      have hfid := xorCursor_no47 c.id (h208 c (by simp))
      have hs := split_callKeyFlipped f.appID (xorCursor c.id) hsep hfid
      simp [decodeListedKey, hpath, callKey, flipCursor, hs]
    have hget : getCallByKey bucket (callKeyFlipped f.appID (flipCursor c.id))
        = Except.ok c := by
      have he : callKeyFlipped f.appID (flipCursor c.id) = callKey f.appID c.id := rfl
      rw [he]
      simp [getCallByKey, hfind c (by simp)]
    simp only [processKeys, hdec]
    rw [hget]
    simp only [skipFrom, hft, stopTo, htt]
    rw [ih (acc ++ [c]) (fun x hx => hfind x (by simp [hx]))
        (fun x hx => h208 x (by simp [hx]))]
    simp [withGet]
    rfl

lemma getCalls_page (app : Bytes) (records : List Call) (extra : Bucket)
    (p : Nat) (cur : Bytes) (rest : List Call)
    (happ : app ≠ []) (hsep : ∀ b ∈ app, b ≠ 47)
    (hid208 : ∀ c ∈ records, ∀ b ∈ c.id, b ≠ 208)
    (hsorted : List.Pairwise (fun x y => ltb x y = true)
      (records.map (fun c => callKey app c.id)))
    (hextra : ∀ kv ∈ extra, startsWith (callKey app []) kv.1 = false)
    (hrest : ∀ c ∈ rest, c ∈ records)
    (hcur : (records.map (fun c => callKey app c.id)).filter
        (fun k => ltb (if cur = [] then [] else callKey app cur) k)
        = rest.map (fun c => callKey app c.id)) :
    GetCalls (records.map (fun c => (callKey app c.id, some c)) ++ extra)
        ⟨app, [], none, none, cur, p⟩
      = ((rest.take p, none),
         BackendOp.listReq (callKey app [])
             (if cur = [] then [] else callKey app cur) p
           :: (rest.take p).map (fun c => BackendOp.getReq (callKey app c.id))) := by
  have hkeys : listKeys (records.map (fun c => (callKey app c.id, some c)) ++ extra)
      (callKey app []) (if cur = [] then [] else callKey app cur) p
      = (rest.take p).map (fun c => callKey app c.id) := by
    unfold listKeys
    rw [bucket_keys_pre app records extra hextra, hcur, ← List.map_take]
  have hclean : processKeys
      (records.map (fun c => (callKey app c.id, some c)) ++ extra)
      ⟨app, [], none, none, cur, p⟩
      ((rest.take p).map (fun c => callKey app c.id)) []
      = ([] ++ rest.take p, none,
         (rest.take p).map (fun c => BackendOp.getReq (callKey app c.id))) :=
    processKeys_clean
      (records.map (fun c => (callKey app c.id, some c)) ++ extra)
      ⟨app, [], none, none, cur, p⟩ rfl rfl rfl hsep (rest.take p) []
      (fun c hc => findVal_records app records extra c hsorted
        (hrest c ((List.take_sublist p rest).mem hc)))
      (fun c hc => hid208 c (hrest c ((List.take_sublist p rest).mem hc)))
  simp only [GetCalls, timeMid]
  rw [if_neg happ]
  simp only [if_true, ite_true]
  rw [hkeys, hclean]
  simp

lemma chainPages_drop (app : Bytes) (records : List Call) (extra : Bucket)
    (p : Nat)
    (happ : app ≠ []) (hsep : ∀ b ∈ app, b ≠ 47)
    (hid_ne : ∀ c ∈ records, c.id ≠ [])
    (hid208 : ∀ c ∈ records, ∀ b ∈ c.id, b ≠ 208)
    (hsorted : List.Pairwise (fun x y => ltb x y = true)
      (records.map (fun c => callKey app c.id)))
    (hextra : ∀ kv ∈ extra, startsWith (callKey app []) kv.1 = false)
    (hp : 1 ≤ p) :
    ∀ (fuel : Nat) (done rest : List Call) (cur : Bytes),
      records = done ++ rest →
      rest.length < fuel →
      (records.map (fun c => callKey app c.id)).filter
          (fun k => ltb (if cur = [] then [] else callKey app cur) k)
        = rest.map (fun c => callKey app c.id) →
      chainPages (records.map (fun c => (callKey app c.id, some c)) ++ extra)
        ⟨app, [], none, none, [], p⟩ fuel cur = rest := by
  intro fuel
  induction fuel with
  | zero =>
    intro done rest cur _ hlen _
    omega
  | succ fuel ih =>
    intro done rest cur hsplit hlen hcur
    have hrest : ∀ c ∈ rest, c ∈ records := by
      intro c hc
      rw [hsplit]
      exact List.mem_append_right done hc
    have hpage := getCalls_page app records extra p cur rest happ hsep hid208
      hsorted hextra hrest hcur
    simp only [chainPages]
    rw [hpage]
    cases hre : rest with
    | nil => simp
    | cons r rest0 =>
      have htke : rest.take p ≠ [] := by
        rw [hre]
        simp only [ne_eq, List.take_eq_nil_iff]
        push_neg
        constructor
        · omega
        · simp
      rcases List.eq_nil_or_concat (rest.take p) with hnil | ⟨L, lastc, hLc⟩
      · exact absurd hnil htke
      rw [List.concat_eq_append] at hLc
      rw [← hre, hLc, List.getLast?_concat]
      have hlast_rest : lastc ∈ rest := by
        have : lastc ∈ rest.take p := by
          rw [hLc]
          simp
        exact (List.take_sublist p rest).mem this
      have hlast_rec : lastc ∈ records := hrest lastc hlast_rest
      have hlast_ne : lastc.id ≠ [] := hid_ne lastc hlast_rec
      have hrec2 : records = (done ++ L) ++ lastc :: rest.drop p := by
        rw [hsplit]
        conv_lhs => rw [← List.take_append_drop p rest]
        rw [hLc]
        simp
      have hKshape : records.map (fun c => callKey app c.id)
          = (done ++ L).map (fun c => callKey app c.id)
            ++ callKey app lastc.id :: (rest.drop p).map (fun c => callKey app c.id) := by
        conv_lhs => rw [hrec2]
        simp
      have hcur2 : (records.map (fun c => callKey app c.id)).filter
          (fun k => ltb (if lastc.id = [] then [] else callKey app lastc.id) k)
          = (rest.drop p).map (fun c => callKey app c.id) := by
        rw [if_neg hlast_ne, hKshape]
        apply filter_ltb_after
        rw [← hKshape]
        exact hsorted
      have hih := ih (done ++ rest.take p) (rest.drop p) lastc.id
        (by rw [hsplit]; conv_lhs => rw [← List.take_append_drop p rest]
            rw [List.append_assoc])
        (by
          have h1 : rest.length < fuel + 1 := hlen
          have h2 : (rest.drop p).length = rest.length - p := List.length_drop p rest
          have h3 : rest.length ≠ 0 := by rw [hre]; simp
          omega)
        hcur2
      have hfin : L ++ lastc :: rest.drop p = rest := by
        conv_rhs => rw [← List.take_append_drop p rest]
        rw [hLc]
        simp
      simp [hih, hfin]

/-- Claim C8: with no time bounds, for any set of inserted records (plus
arbitrary foreign bucket entries outside the app's namespace) chained
page queries — each resuming at the previous page's last returned call id
as the cursor — concatenate to exactly the records of one unbounded
listing, in the same order, with no duplicates and no omissions. -/
theorem c8_pagination_complete
    (app : Bytes) (records : List Call) (extra : Bucket) (p fuel : Nat)
    (happ : app ≠ []) (hsep : ∀ b ∈ app, b ≠ 47)
    (hid_ne : ∀ c ∈ records, c.id ≠ [])
    (hid208 : ∀ c ∈ records, ∀ b ∈ c.id, b ≠ 208)
    (hsorted : List.Pairwise (fun x y => ltb x y = true)
      (records.map (fun c => callKey app c.id)))
    (hextra : ∀ kv ∈ extra, startsWith (callKey app []) kv.1 = false)
    (hp : 1 ≤ p) (hfuel : records.length < fuel) :
    (GetCalls (records.map (fun c => (callKey app c.id, some c)) ++ extra)
        ⟨app, [], none, none, [], records.length⟩).1
      = (records, none) ∧
    chainPages (records.map (fun c => (callKey app c.id, some c)) ++ extra)
      ⟨app, [], none, none, [], p⟩ fuel [] = records := by
  have hnil : (records.map (fun c => callKey app c.id)).filter
      (fun k => ltb (if ([] : Bytes) = [] then []
        else callKey app ([] : Bytes)) k)
      = records.map (fun c => callKey app c.id) := by
    rw [if_pos rfl]
    apply filter_ltb_nil_marker
    intro k hk
    obtain ⟨c, _, rfl⟩ := List.mem_map.mp hk
    exact callKey_ne_nil app c.id
  constructor
  · have hpage := getCalls_page app records extra records.length [] records
      happ hsep hid208 hsorted hextra (fun c hc => hc) hnil
    rw [hpage]
    simp
  · exact chainPages_drop app records extra p happ hsep hid_ne hid208 hsorted
      hextra hp fuel [] records [] rfl hfuel hnil

/-- Three records whose primary keys ascend (ids descend bytewise). -/
def c8Recs : List Call :=
  [⟨[97], [52], [], 30⟩, ⟨[97], [50], [], 20⟩, ⟨[97], [49], [], 10⟩]

/-- A foreign bucket entry outside the `c/a/` namespace. -/
def c8Extra : Bucket := [([109, 47, 97, 47, 120], none)]

theorem c8_pagination_complete_witness :
    (GetCalls (c8Recs.map (fun c => (callKey [97] c.id, some c)) ++ c8Extra)
        ⟨[97], [], none, none, [], c8Recs.length⟩).1
      = (c8Recs, none) ∧
    chainPages (c8Recs.map (fun c => (callKey [97] c.id, some c)) ++ c8Extra)
      ⟨[97], [], none, none, [], 2⟩ 4 [] = c8Recs :=
  c8_pagination_complete [97] c8Recs c8Extra 2 4 (by decide) (by decide)
    (by decide) (by decide) (by decide) (by decide) (by decide) (by decide)
